import Mathlib

/-!
Verification development for the daisyStockAnalysis repository.

The Python sources are shallowly embedded over exact rational arithmetic:
a pandas numeric column is a `List (Option ℚ)` where `none` stands for a
missing value (`NaN`, including values coerced to `NaN` by
`pd.to_numeric(errors="coerce")`).  All pandas/NumPy comparisons against
`NaN` evaluate to `False`; the `opt*` comparison helpers below mirror that.
-/

attribute [local semireducible] Rat.mul Rat.inv Rat.add Rat.sub Rat.ofScientific

namespace Daisy

/-- Boolean `a > b` on optional rationals; `false` when either side is
missing, mirroring pandas comparisons against `NaN` (together with the
defensive `.fillna(False)` in `break_retest.py` line 53). -/
def optGt (a b : Option ℚ) : Bool :=
  match a, b with
  | some x, some y => decide (y < x)
  | _, _ => false

/-- Boolean `a < b` on optional rationals; `false` when either side is missing. -/
def optLt (a b : Option ℚ) : Bool :=
  match a, b with
  | some x, some y => decide (x < y)
  | _, _ => false

/-- Boolean `a <= b` on optional rationals; `false` when either side is missing. -/
def optLe (a b : Option ℚ) : Bool :=
  match a, b with
  | some x, some y => decide (x ≤ y)
  | _, _ => false

/-- Boolean `a >= b` on optional rationals; `false` when either side is missing. -/
def optGe (a b : Option ℚ) : Bool :=
  match a, b with
  | some x, some y => decide (y ≤ x)
  | _, _ => false

/-- Maximum of two rationals, written with an explicit comparison so that
concrete instances reduce inside the kernel. -/
def qmax (a b : ℚ) : ℚ := if a ≤ b then b else a

/-- Minimum of two rationals, written with an explicit comparison. -/
def qmin (a b : ℚ) : ℚ := if b ≤ a then b else a

/-- Largest element of a list of rationals (`0` on the empty list, which the
rolling aggregations below never hit because the window is non-empty). -/
def maxD : List ℚ → ℚ
  | [] => 0
  | a :: t => t.foldl qmax a

/-- Smallest element of a list of rationals (`0` on the empty list). -/
def minD : List ℚ → ℚ
  | [] => 0
  | a :: t => t.foldl qmin a

/-- Sequence a list of optional values: `some` of the list of contents when
every entry is present, `none` as soon as one entry is missing.  Used to
express pandas `min_periods = window`: the aggregate is defined only when
all `window` observations in the window are non-`NaN`. -/
def seqOption : List (Option ℚ) → Option (List ℚ)
  | [] => some []
  | none :: _ => none
  | some a :: rest => (seqOption rest).map (a :: ·)

/-- Trailing window of width `w` ending at index `i` (inclusive), as pandas
`rolling(window=w)` sees it at row `i`. -/
def windowAt (w i : ℕ) (xs : List (Option ℚ)) : List (Option ℚ) :=
  (xs.take (i + 1)).drop (i + 1 - w)

/-- Rolling aggregate with `min_periods = w` (as in `rolling_extrema`,
`break_retest.py` lines 6-7): row `i` is defined iff `w ≥ 1`, at least `w`
rows exist up to `i`, and all `w` window entries are non-missing; pandas
yields `NaN` everywhere for `window=0`. -/
def rollingAgg (f : List ℚ → ℚ) (w : ℕ) (xs : List (Option ℚ)) : List (Option ℚ) :=
  (List.range xs.length).map fun i =>
    if 1 ≤ w ∧ w ≤ i + 1 then
      match seqOption (windowAt w i xs) with
      | some ys => some (f ys)
      | none => none
    else none

/-- The `HH` and `LL` columns of `rolling_extrema` (`break_retest.py`
lines 4-8): rolling max / rolling min of the price column over `lookback`
bars with `min_periods = lookback`. -/
def rolling_extrema (lookback : ℕ) (close : List (Option ℚ)) :
    List (Option ℚ) × List (Option ℚ) :=
  (rollingAgg maxD lookback close, rollingAgg minD lookback close)

/-- Regime strings of the `break_retest_signals` state machine
(`break_retest.py` line 58). -/
inductive Regime where
  | neutral
  | wait_retest_up
  | wait_confirm_up
  | wait_retest_dn
  | wait_confirm_dn
deriving DecidableEq, Repr

/-- Loop-carried state of `break_retest_signals`: the current regime, the
breakout `level` (`None` when unset) and the `bars_after_retest` counter. -/
structure BrkSt where
  regime : Regime
  level : Option ℚ
  bars_after_retest : ℕ
deriving DecidableEq, Repr

/-- Initial detector state (`break_retest.py` lines 58-60). -/
def brkInit : BrkSt := ⟨Regime.neutral, none, 0⟩

/-- One iteration of the loop body of `break_retest_signals`
(`break_retest.py` lines 65-130) on price `p`, rolling extrema `hh`/`ll`
(`none` = `NaN`).  Returns the post-transition state together with the
`(buy, sell)` flags appended for this row.  `broke_up`/`broke_dn` are the
pointwise comparisons of line 53-54; comparisons involving a missing `p`
are `false`, as for `NaN` floats in Python.  Divisions are by `level`,
which the source only ever sets from a strictly-compared finite value. -/
def brkStep (tolerance : ℚ) (confirmation_bars : ℕ) (st : BrkSt)
    (p hh ll : Option ℚ) : BrkSt × ℕ × ℕ :=
  match st.regime with
  | Regime.neutral =>
    if optGt p hh && hh.isSome then
      (⟨Regime.wait_retest_up, hh, 0⟩, 0, 0)
    else if optLt p ll && ll.isSome then
      (⟨Regime.wait_retest_dn, ll, 0⟩, 0, 0)
    else (st, 0, 0)
  | Regime.wait_retest_up =>
    match st.level, p with
    | some lv, some pv =>
      if |pv - lv| / lv ≤ tolerance then
        (⟨Regime.wait_confirm_up, some lv, 0⟩, 0, 0)
      else if pv < lv * (1 - 3 * tolerance) then
        (⟨Regime.neutral, none, st.bars_after_retest⟩, 0, 0)
      else (st, 0, 0)
    | _, _ => (st, 0, 0)
  | Regime.wait_confirm_up =>
    match st.level, p with
    | some lv, some pv =>
      if lv < pv then
        let b := st.bars_after_retest + 1
        if confirmation_bars ≤ b then
          (⟨Regime.neutral, none, 0⟩, 1, 0)
        else (⟨Regime.wait_confirm_up, some lv, b⟩, 0, 0)
      else if pv < lv * (1 - 2 * tolerance) then
        (⟨Regime.neutral, none, 0⟩, 0, 0)
      else (st, 0, 0)
    | _, _ => (st, 0, 0)
  | Regime.wait_retest_dn =>
    match st.level, p with
    | some lv, some pv =>
      if |pv - lv| / lv ≤ tolerance then
        (⟨Regime.wait_confirm_dn, some lv, 0⟩, 0, 0)
      else if lv * (1 + 3 * tolerance) < pv then
        (⟨Regime.neutral, none, st.bars_after_retest⟩, 0, 0)
      else (st, 0, 0)
    | _, _ => (st, 0, 0)
  | Regime.wait_confirm_dn =>
    match st.level, p with
    | some lv, some pv =>
      if pv < lv then
        let b := st.bars_after_retest + 1
        if confirmation_bars ≤ b then
          (⟨Regime.neutral, none, 0⟩, 0, 1)
        else (⟨Regime.wait_confirm_dn, some lv, b⟩, 0, 0)
      else if lv * (1 + 2 * tolerance) < pv then
        (⟨Regime.neutral, none, 0⟩, 0, 0)
      else (st, 0, 0)
    | _, _ => (st, 0, 0)

/-- Zip three columns into rows, truncating at the shortest (the three
columns of one DataFrame always share the index, hence the length). -/
def zip3 : List (Option ℚ) → List (Option ℚ) → List (Option ℚ) →
    List (Option ℚ × Option ℚ × Option ℚ)
  | a :: as_, b :: bs, c :: cs => (a, b, c) :: zip3 as_ bs cs
  | _, _, _ => []

/-- Run the `break_retest_signals` loop over the rows, emitting for each row
the post-transition `BRK_STATE` (the regime appended at line 128) and the
`BRK_BUY`/`BRK_SELL` flags. -/
def brkRun (tolerance : ℚ) (confirmation_bars : ℕ) :
    BrkSt → List (Option ℚ × Option ℚ × Option ℚ) → List (Regime × ℕ × ℕ)
  | _, [] => []
  | st, (p, hh, ll) :: rest =>
    let r := brkStep tolerance confirmation_bars st p hh ll
    (r.1.regime, r.2.1, r.2.2) :: brkRun tolerance confirmation_bars r.1 rest

/-- The `(BRK_STATE, BRK_BUY, BRK_SELL)` columns produced by
`break_retest_signals` (`break_retest.py` lines 11-135) on a numeric price
column `close` (entries `none` = `NaN`). -/
def break_retest_signals (close : List (Option ℚ)) (lookback : ℕ)
    (tolerance : ℚ) (confirmation_bars : ℕ) : List (Regime × ℕ × ℕ) :=
  let e := rolling_extrema lookback close
  brkRun tolerance confirmation_bars brkInit (zip3 close e.1 e.2)

/-- Entry point of `break_retest_signals` with the raw Python `int` lookback.
The source performs no parameter validation of its own; the only refusal on
the lookback path is pandas raising `ValueError` for a negative rolling
window (`window must be an integer 0 or greater`); `tolerance` and
`confirmation_bars` are never checked. -/
def break_retest_signalsE (close : List (Option ℚ)) (lookback : ℤ)
    (tolerance : ℚ) (confirmation_bars : ℕ) :
    Except String (List (Regime × ℕ × ℕ)) :=
  if lookback < 0 then Except.error "window must be an integer 0 or greater"
  else Except.ok (break_retest_signals close lookback.toNat tolerance confirmation_bars)

/-- Exponential moving average with smoothing factor `α`, continued from a
previous value `prev`: `y[t] = x[t]*α + y[t-1]*(1-α)`. -/
def emaFrom (α prev : ℚ) : List ℚ → List ℚ
  | [] => []
  | c :: rest =>
    let y := c * α + prev * (1 - α)
    y :: emaFrom α y rest

/-- Smoothing factor used by pandas for `ewm(span=period)`:
`α = 2/(span+1)`. -/
def emaAlpha (period : ℕ) : ℚ := 2 / ((period : ℚ) + 1)

/-- The column computed by `ema` (`indicator_utils.py` lines 19-24) on a
numeric price series: pandas `ewm(span=period, adjust=False).mean()`, i.e.
`y[0] = x[0]` and `y[t] = x[t]*α + y[t-1]*(1-α)` with `α = 2/(span+1)`. -/
def ema (period : ℕ) (close : List ℚ) : List ℚ :=
  match close with
  | [] => []
  | c :: rest => c :: emaFrom (emaAlpha period) c rest

/-- Pandas `Series.shift(1)`: every value moves down one row, the first row
becomes `NaN`, the former last value drops off. -/
def shift1 (l : List (Option ℚ)) : List (Option ℚ) :=
  none :: l.dropLast

/-- The `(buy, sell)` boolean columns of `ma_crossover_signals`
(`crossover.py` lines 3-6):
`buy = (fast > slow) & (fast.shift(1) <= slow.shift(1))` and
`sell = (fast < slow) & (fast.shift(1) >= slow.shift(1))`, with every
comparison against `NaN` evaluating to `False`. -/
def ma_crossover_signals (fast slow : List (Option ℚ)) :
    List Bool × List Bool :=
  (List.zipWith and (List.zipWith optGt fast slow)
      (List.zipWith optLe (shift1 fast) (shift1 slow)),
   List.zipWith and (List.zipWith optLt fast slow)
      (List.zipWith optGe (shift1 fast) (shift1 slow)))

/-- Raw values of one live bar row (`server.py` lines 102-104); a field is
`none` when the incoming JSON lacked the key. -/
structure Bar where
  Open : Option ℚ
  High : Option ℚ
  Low : Option ℚ
  Close : Option ℚ
  Volume : Option ℚ
deriving DecidableEq, Repr

/-- Ordering of DataFrame rows by the timestamp index. -/
def tsLe (a b : ℕ × Bar) : Prop := a.1 ≤ b.1

instance : DecidableRel tsLe := fun a b => Nat.decLe a.1 b.1

instance : IsTotal (ℕ × Bar) tsLe := ⟨fun a b => Nat.le_total a.1 b.1⟩

instance : IsTrans (ℕ × Bar) tsLe := ⟨fun _ _ _ h h' => Nat.le_trans h h'⟩

/-- Pandas `DataFrame.drop_duplicates()` with default arguments: a row is
dropped when an earlier row has identical COLUMN VALUES; the index
(timestamp) takes no part in the comparison, and the first occurrence is
kept.  `seen` accumulates the values already kept. -/
def dropDuplicatesFrom (seen : List Bar) : List (ℕ × Bar) → List (ℕ × Bar)
  | [] => []
  | (t, b) :: rest =>
    if b ∈ seen then dropDuplicatesFrom seen rest
    else (t, b) :: dropDuplicatesFrom (b :: seen) rest

/-- Pandas `DataFrame.drop_duplicates()` over rows of timestamp × values. -/
def drop_duplicates (l : List (ℕ × Bar)) : List (ℕ × Bar) :=
  dropDuplicatesFrom [] l

/-- The live-append step of `ws_bars` (`server.py` line 105):
`df = pd.concat([df, row]).sort_index().drop_duplicates()`.  The
concatenated frame is sorted by the timestamp index (modelled by a stable
sort; the property statements below do not depend on how pandas orders
equal timestamps) and then value-deduplicated. -/
def ws_bars_append (df : List (ℕ × Bar)) (row : ℕ × Bar) : List (ℕ × Bar) :=
  drop_duplicates (List.insertionSort tsLe (df ++ [row]))

/-- Concrete bar already present in a series at some timestamp. -/
def barA : Bar := ⟨some 1, some 2, some 1, some 10, some 100⟩

/-- Concrete live bar arriving later with the same timestamp but a
different close value. -/
def barB : Bar := ⟨some 1, some 2, some 1, some 11, some 100⟩

/-- The columns of the DataFrame handed to `last_signal_row`: the timestamp
index plus the two flag columns, each either absent (`none`) or a column of
optional numeric values aligned with the index (`none` entries are values
that `pd.to_numeric(errors="coerce")` turns into `NaN`). -/
structure SignalFrame where
  index : List ℕ
  BRK_BUY : Option (List (Option ℚ))
  BRK_SELL : Option (List (Option ℚ))

/-- The helper `_last_flag` of `last_signal_row` (`break_retest.py` lines
142-149): `0` when the column is absent or empty or its last value is
`NaN`, otherwise that last value. -/
def lastFlag (col : Option (List (Option ℚ))) : ℚ :=
  match col with
  | none => 0
  | some l =>
    match l.getLast? with
    | none => 0
    | some none => 0
    | some (some v) => v

/-- The function `last_signal_row` (`break_retest.py` lines 138-157):
`(None, None)` on an empty frame, otherwise `BUY`/`SELL`/`None` according
to the last flag values, paired with the last timestamp. -/
def last_signal_row (f : SignalFrame) : Option String × Option ℕ :=
  if f.index.length = 0 then (none, none)
  else if 1 ≤ lastFlag f.BRK_BUY then (some "BUY", f.index.getLast?)
  else if 1 ≤ lastFlag f.BRK_SELL then (some "SELL", f.index.getLast?)
  else (none, f.index.getLast?)

/-! Helper lemmas about the rolling window aggregates. -/

theorem le_qmax_left (a b : ℚ) : a ≤ qmax a b := by
  unfold qmax; split
  · assumption
  · exact le_refl a

theorem le_qmax_right (a b : ℚ) : b ≤ qmax a b := by
  unfold qmax; split
  · exact le_refl b
  · exact le_of_lt (lt_of_not_le (by assumption))

theorem qmin_le_left (a b : ℚ) : qmin a b ≤ a := by
  unfold qmin; split
  · assumption
  · exact le_refl a

theorem qmin_le_right (a b : ℚ) : qmin a b ≤ b := by
  unfold qmin; split
  · exact le_refl b
  · exact le_of_lt (lt_of_not_le (by assumption))

theorem le_foldl_qmax (t : List ℚ) (a : ℚ) : a ≤ t.foldl qmax a := by
  induction t generalizing a with
  | nil => exact le_refl a
  | cons b t ih => exact le_trans (le_qmax_left a b) (ih (qmax a b))

theorem mem_le_foldl_qmax (t : List ℚ) (a x : ℚ) (hx : x ∈ t) : x ≤ t.foldl qmax a := by
  induction t generalizing a with
  | nil => cases hx
  | cons b t ih =>
    rcases List.mem_cons.mp hx with h | h
    · subst h
      exact le_trans (le_qmax_right a x) (le_foldl_qmax t (qmax a x))
    · exact ih (qmax a b) h

theorem foldl_qmin_le (t : List ℚ) (a : ℚ) : t.foldl qmin a ≤ a := by
  induction t generalizing a with
  | nil => exact le_refl a
  | cons b t ih => exact le_trans (ih (qmin a b)) (qmin_le_left a b)

theorem foldl_qmin_le_mem (t : List ℚ) (a x : ℚ) (hx : x ∈ t) : t.foldl qmin a ≤ x := by
  induction t generalizing a with
  | nil => cases hx
  | cons b t ih =>
    rcases List.mem_cons.mp hx with h | h
    · subst h
      exact le_trans (foldl_qmin_le t (qmin a x)) (qmin_le_right a x)
    · exact ih (qmin a b) h

theorem le_maxD (l : List ℚ) (x : ℚ) (hx : x ∈ l) : x ≤ maxD l := by
  cases l with
  | nil => cases hx
  | cons a t =>
    rcases List.mem_cons.mp hx with h | h
    · subst h; exact le_foldl_qmax t x
    · exact mem_le_foldl_qmax t a x h

theorem minD_le (l : List ℚ) (x : ℚ) (hx : x ∈ l) : minD l ≤ x := by
  cases l with
  | nil => cases hx
  | cons a t =>
    rcases List.mem_cons.mp hx with h | h
    · subst h; exact foldl_qmin_le t x
    · exact foldl_qmin_le_mem t a x h

theorem seqOption_mem (l : List (Option ℚ)) (ys : List ℚ)
    (h : seqOption l = some ys) (o : Option ℚ) (ho : o ∈ l) :
    ∃ c, o = some c ∧ c ∈ ys := by
  induction l generalizing ys with
  | nil => cases ho
  | cons a rest ih =>
    cases a with
    | none => exact Option.noConfusion h
    | some a =>
      simp only [seqOption] at h
      cases hrest : seqOption rest with
      | none => rw [hrest] at h; simp at h
      | some ys' =>
        rw [hrest] at h
        have h : a :: ys' = ys := Option.some.inj h
        rcases List.mem_cons.mp ho with h' | h'
        · exact ⟨a, h', by rw [← h]; exact List.mem_cons_self a ys'⟩
        · obtain ⟨c, rfl, hc⟩ := ih ys' hrest h'
          exact ⟨c, rfl, by rw [← h]; exact List.mem_cons_of_mem a hc⟩

theorem windowAt_length (xs : List (Option ℚ)) (w i : ℕ) (hi : i < xs.length)
    (h2 : w ≤ i + 1) : (windowAt w i xs).length = w := by
  unfold windowAt
  rw [List.length_drop, List.length_take]
  omega

theorem mem_windowAt (xs : List (Option ℚ)) (w i : ℕ) (_hi : i < xs.length)
    (h1 : 1 ≤ w) (h2 : w ≤ i + 1) (v : Option ℚ) (hv : xs[i]? = some v) :
    v ∈ windowAt w i xs := by
  have hget : (windowAt w i xs)[w - 1]? = some v := by
    unfold windowAt
    rw [List.getElem?_drop, List.getElem?_take_of_lt (by omega)]
    rw [show i + 1 - w + (w - 1) = i by omega]
    exact hv
  exact List.getElem?_mem hget

theorem rollingAgg_getElem? (f : List ℚ → ℚ) (w : ℕ) (xs : List (Option ℚ))
    (i : ℕ) (hi : i < xs.length) :
    (rollingAgg f w xs)[i]? = some (if 1 ≤ w ∧ w ≤ i + 1 then
      (match seqOption (windowAt w i xs) with
       | some ys => some (f ys)
       | none => none)
      else none) := by
  unfold rollingAgg
  rw [List.getElem?_map, List.getElem?_range hi]
  rfl

theorem rollingAgg_length (f : List ℚ → ℚ) (w : ℕ) (xs : List (Option ℚ)) :
    (rollingAgg f w xs).length = xs.length := by
  unfold rollingAgg
  rw [List.length_map, List.length_range]

/-- Where the rolling max with an inclusive window is defined, it bounds the
price at the same row from above. -/
theorem rollingMax_ge_close (xs : List (Option ℚ)) (w i : ℕ) (h : ℚ)
    (hh : (rollingAgg maxD w xs)[i]? = some (some h)) :
    ∃ c, xs[i]? = some (some c) ∧ c ≤ h := by
  have hi : i < xs.length := by
    have h1 := (List.getElem?_eq_some_iff.mp hh).1
    rw [rollingAgg_length] at h1
    exact h1
  rw [rollingAgg_getElem? maxD w xs i hi] at hh
  have hh' := Option.some.inj hh
  split at hh'
  case isFalse => cases hh'
  case isTrue hcond =>
    cases hseq : seqOption (windowAt w i xs) with
    | none => rw [hseq] at hh'; cases hh'
    | some ys =>
      rw [hseq] at hh'
      have hmax : maxD ys = h := Option.some.inj hh'
      obtain ⟨v, hv⟩ : ∃ v, xs[i]? = some v := by
        rw [List.getElem?_eq_getElem hi]; exact ⟨_, rfl⟩
      have hvmem := mem_windowAt xs w i hi hcond.1 hcond.2 v hv
      obtain ⟨c, rfl, hc⟩ := seqOption_mem _ _ hseq v hvmem
      exact ⟨c, hv, hmax ▸ le_maxD ys c hc⟩

/-- Where the rolling min with an inclusive window is defined, it bounds the
price at the same row from below. -/
theorem rollingMin_le_close (xs : List (Option ℚ)) (w i : ℕ) (l : ℚ)
    (hl : (rollingAgg minD w xs)[i]? = some (some l)) :
    ∃ c, xs[i]? = some (some c) ∧ l ≤ c := by
  have hi : i < xs.length := by
    have h1 := (List.getElem?_eq_some_iff.mp hl).1
    rw [rollingAgg_length] at h1
    exact h1
  rw [rollingAgg_getElem? minD w xs i hi] at hl
  have hl' := Option.some.inj hl
  split at hl'
  case isFalse => cases hl'
  case isTrue hcond =>
    cases hseq : seqOption (windowAt w i xs) with
    | none => rw [hseq] at hl'; cases hl'
    | some ys =>
      rw [hseq] at hl'
      have hmin : minD ys = l := Option.some.inj hl'
      obtain ⟨v, hv⟩ : ∃ v, xs[i]? = some v := by
        rw [List.getElem?_eq_getElem hi]; exact ⟨_, rfl⟩
      have hvmem := mem_windowAt xs w i hi hcond.1 hcond.2 v hv
      obtain ⟨c, rfl, hc⟩ := seqOption_mem _ _ hseq v hvmem
      exact ⟨c, hv, hmin ▸ minD_le ys c hc⟩

/-! Helper lemmas about the break-retest state machine. -/

/-- In the neutral regime, when neither breakout comparison holds the step
is the identity and no signal fires. -/
theorem brkStep_neutral (tol : ℚ) (cb : ℕ) (p hh ll : Option ℚ)
    (hup : optGt p hh = false) (hdn : optLt p ll = false) :
    brkStep tol cb brkInit p hh ll = (brkInit, 0, 0) := by
  simp [brkStep, brkInit, hup, hdn]

/-- A run over rows on which neither breakout comparison ever holds stays
neutral forever and emits no signal. -/
theorem brkRun_neutral (tol : ℚ) (cb : ℕ) :
    ∀ rows : List (Option ℚ × Option ℚ × Option ℚ),
    (∀ r ∈ rows, optGt r.1 r.2.1 = false ∧ optLt r.1 r.2.2 = false) →
    brkRun tol cb brkInit rows = rows.map (fun _ => (Regime.neutral, 0, 0)) := by
  intro rows
  induction rows with
  | nil => intro _; rfl
  | cons r rest ih =>
    intro hcond
    obtain ⟨p, hh, ll⟩ := r
    obtain ⟨h1, h2⟩ := hcond (p, hh, ll) (List.mem_cons_self _ _)
    have hstep := brkStep_neutral tol cb p hh ll h1 h2
    show ((brkStep tol cb brkInit p hh ll).1.regime,
          (brkStep tol cb brkInit p hh ll).2.1,
          (brkStep tol cb brkInit p hh ll).2.2) ::
         brkRun tol cb (brkStep tol cb brkInit p hh ll).1 rest = _
    rw [hstep, ih fun r hr => hcond r (List.mem_cons_of_mem _ hr)]
    rfl

/-- Each element of a `zip3` comes from the three columns at one common
index. -/
theorem zip3_mem (as bs cs : List (Option ℚ))
    (r : Option ℚ × Option ℚ × Option ℚ) (hr : r ∈ zip3 as bs cs) :
    ∃ i : ℕ, as[i]? = some r.1 ∧ bs[i]? = some r.2.1 ∧ cs[i]? = some r.2.2 := by
  induction as generalizing bs cs with
  | nil => cases bs <;> cases cs <;> cases hr
  | cons a as ih =>
    cases bs with
    | nil => cases hr
    | cons b bs =>
      cases cs with
      | nil => cases hr
      | cons c cs =>
        rcases List.mem_cons.mp hr with h | h
        · subst h
          exact ⟨0, by simp, by simp, by simp⟩
        · obtain ⟨i, h1, h2, h3⟩ := ih bs cs h
          refine ⟨i + 1, ?_, ?_, ?_⟩ <;>
            simp only [List.getElem?_cons_succ] <;> assumption

theorem zip3_length : ∀ (as bs cs : List (Option ℚ)),
    as.length = bs.length → as.length = cs.length →
    (zip3 as bs cs).length = as.length
  | [], [], [], _, _ => rfl
  | [], _ :: _, _, h, _ => by cases h
  | [], [], _ :: _, _, h => by cases h
  | _ :: _, [], _, h, _ => by cases h
  | _ :: _, _ :: _, [], _, h => by cases h
  | a :: as, b :: bs, c :: cs, h1, h2 => by
    simp only [zip3, List.length_cons]
    rw [zip3_length as bs cs (by simpa using h1) (by simpa using h2)]

/-- On any price column, the upward breakout comparison against the rolling
max whose window includes the current bar is false at every row. -/
theorem brk_broke_up_false (xs : List (Option ℚ)) (lookback i : ℕ)
    (p hh : Option ℚ) (hp : xs[i]? = some p)
    (hhh : (rollingAgg maxD lookback xs)[i]? = some hh) :
    optGt p hh = false := by
  cases hh with
  | none => cases p <;> rfl
  | some h =>
    obtain ⟨c, hc, hle⟩ := rollingMax_ge_close _ _ _ _ hhh
    rw [hp] at hc
    have hpc : p = some c := Option.some.inj hc
    subst hpc
    simp [optGt, not_lt.mpr hle]

/-- On any price column, the downward breakout comparison against the
rolling min whose window includes the current bar is false at every row. -/
theorem brk_broke_dn_false (xs : List (Option ℚ)) (lookback i : ℕ)
    (p ll : Option ℚ) (hp : xs[i]? = some p)
    (hll : (rollingAgg minD lookback xs)[i]? = some ll) :
    optLt p ll = false := by
  cases ll with
  | none => cases p <;> rfl
  | some l =>
    obtain ⟨c, hc, hle⟩ := rollingMin_le_close _ _ _ _ hll
    rw [hp] at hc
    have hpc : p = some c := Option.some.inj hc
    subst hpc
    simp [optLt, not_lt.mpr hle]

/-- The break-retest run over any row sequence whose breakout comparisons
are everywhere false is identically `(neutral, 0, 0)`. -/
theorem break_retest_signals_all_neutral (close : List (Option ℚ))
    (lookback : ℕ) (tolerance : ℚ) (confirmation_bars : ℕ) :
    break_retest_signals close lookback tolerance confirmation_bars =
      List.replicate close.length (Regime.neutral, 0, 0) := by
  show brkRun tolerance confirmation_bars brkInit
      (zip3 close (rolling_extrema lookback close).1
        (rolling_extrema lookback close).2) = _
  rw [brkRun_neutral]
  · apply List.eq_replicate_iff.mpr
    constructor
    · rw [List.length_map]
      exact zip3_length close _ _
        (rollingAgg_length maxD lookback close).symm
        (rollingAgg_length minD lookback close).symm
    · intro b hb
      rcases List.mem_map.mp hb with ⟨r, _, hr⟩
      exact hr.symm
  · intro r hr
    obtain ⟨i, h1, h2, h3⟩ := zip3_mem _ _ _ r hr
    exact ⟨brk_broke_up_false close lookback i r.1 r.2.1 h1 h2,
           brk_broke_dn_false close lookback i r.1 r.2.2 h1 h3⟩

/-- Per-step flag analysis: a step emits no flag, or exactly one of
`buy`/`sell`, and an emitting step always lands in the neutral regime. -/
theorem brkStep_flag_cases (tol : ℚ) (cb : ℕ) (st : BrkSt) (p hh ll : Option ℚ) :
    (brkStep tol cb st p hh ll).2 = (0, 0) ∨
    ((brkStep tol cb st p hh ll).2 = (1, 0) ∧
      (brkStep tol cb st p hh ll).1.regime = Regime.neutral) ∨
    ((brkStep tol cb st p hh ll).2 = (0, 1) ∧
      (brkStep tol cb st p hh ll).1.regime = Regime.neutral) := by
  obtain ⟨reg, lvl, bars⟩ := st
  cases reg <;>
    rcases lvl with _ | lv <;> rcases p with _ | pv <;>
      simp only [brkStep] <;>
      first
      | exact Or.inl trivial
      | (split_ifs <;> simp)

/-- Lifting of `brkStep_flag_cases` to whole runs: every emitted row has
flags `(0,0)`, `(1,0)` with neutral regime, or `(0,1)` with neutral
regime. -/
theorem brkRun_flag_cases (tol : ℚ) (cb : ℕ) :
    ∀ (rows : List (Option ℚ × Option ℚ × Option ℚ)) (st : BrkSt) (i : ℕ)
      (reg : Regime) (buy sell : ℕ),
      (brkRun tol cb st rows)[i]? = some (reg, buy, sell) →
      (buy = 0 ∧ sell = 0) ∨ (buy = 1 ∧ sell = 0 ∧ reg = Regime.neutral) ∨
        (buy = 0 ∧ sell = 1 ∧ reg = Regime.neutral) := by
  intro rows
  induction rows with
  | nil => intro st i reg buy sell h; simp [brkRun] at h
  | cons r rest ih =>
    intro st i reg buy sell h
    obtain ⟨p, hh, ll⟩ := r
    cases i with
    | zero =>
      have hhead : ((brkStep tol cb st p hh ll).1.regime,
                    (brkStep tol cb st p hh ll).2.1,
                    (brkStep tol cb st p hh ll).2.2) = (reg, buy, sell) := by
        simpa [brkRun] using h
      cases hhead
      rcases brkStep_flag_cases tol cb st p hh ll with h0 | h1 | h2
      · exact Or.inl ⟨by rw [h0], by rw [h0]⟩
      · exact Or.inr (Or.inl ⟨by rw [h1.1], by rw [h1.1], h1.2⟩)
      · exact Or.inr (Or.inr ⟨by rw [h2.1], by rw [h2.1], h2.2⟩)
    | succ i =>
      have h' : (brkRun tol cb (brkStep tol cb st p hh ll).1 rest)[i]? =
          some (reg, buy, sell) := by
        simpa [brkRun] using h
      exact ih _ i reg buy sell h'

/-! Claim theorems. -/

/-- C1 (evaluation at the spec's example): for close
`[10, 10, 10, 11, 10.05, 11.2]` with `lookback = 3`, `tolerance = 0.01`,
`confirmation_bars = 1`, the HH column first becomes defined at index 2
with value 10 — but at index 3 it is 11 (the window includes the current
bar), so the breakout test `11 > HH` fails and the machine never leaves
`neutral`: no `wait_retest_up` at index 3, no `wait_confirm_up` at index 4,
and no `buy = 1` at index 5, contradicting the claimed scenario. -/
theorem break_retest_spec_example_stays_neutral :
    (rolling_extrema 3 [some 10, some 10, some 10, some 11, some (201/20 : ℚ),
        some (56/5)]).1 = [none, none, some 10, some 11, some 11, some (56/5)] ∧
    break_retest_signals [some 10, some 10, some 10, some 11, some (201/20),
        some (56/5)] 3 (1/100) 1 = List.replicate 6 (Regime.neutral, 0, 0) :=
  ⟨by decide, by decide⟩

/-- C2: for every numeric price column, wherever HH is defined it bounds the
close from above and wherever LL is defined it bounds the close from below
(the rolling windows include the current bar); the breakout comparisons
`close > HH` and `close < LL` are therefore never satisfied, and
`break_retest_signals` returns state `neutral`, `BRK_BUY = 0` and
`BRK_SELL = 0` at every row. -/
theorem break_retest_inclusive_window_all_neutral (close : List ℚ)
    (lookback : ℕ) (tolerance : ℚ) (confirmation_bars : ℕ) :
    (∀ i : ℕ, ∀ h c : ℚ,
        (rolling_extrema lookback (close.map some)).1[i]? = some (some h) →
        close[i]? = some c → c ≤ h) ∧
    (∀ i : ℕ, ∀ l c : ℚ,
        (rolling_extrema lookback (close.map some)).2[i]? = some (some l) →
        close[i]? = some c → l ≤ c) ∧
    (∀ i : ℕ, ∀ p hh : Option ℚ, (close.map some)[i]? = some p →
        (rolling_extrema lookback (close.map some)).1[i]? = some hh →
        optGt p hh = false) ∧
    (∀ i : ℕ, ∀ p ll : Option ℚ, (close.map some)[i]? = some p →
        (rolling_extrema lookback (close.map some)).2[i]? = some ll →
        optLt p ll = false) ∧
    break_retest_signals (close.map some) lookback tolerance confirmation_bars =
      List.replicate close.length (Regime.neutral, 0, 0) := by
  refine ⟨?_, ?_, ?_, ?_, ?_⟩
  · intro i h c hhh hc
    obtain ⟨c', hc', hle⟩ := rollingMax_ge_close (close.map some) lookback i h hhh
    rw [List.getElem?_map, hc] at hc'
    have : c' = c := by
      have := Option.some.inj hc'
      exact (Option.some.inj this).symm
    rw [← this]
    exact hle
  · intro i l c hll hc
    obtain ⟨c', hc', hle⟩ := rollingMin_le_close (close.map some) lookback i l hll
    rw [List.getElem?_map, hc] at hc'
    have : c' = c := by
      have := Option.some.inj hc'
      exact (Option.some.inj this).symm
    rw [← this]
    exact hle
  · intro i p hh hp hhh
    exact brk_broke_up_false (close.map some) lookback i p hh hp hhh
  · intro i p ll hp hll
    exact brk_broke_dn_false (close.map some) lookback i p ll hp hll
  · have := break_retest_signals_all_neutral (close.map some) lookback
      tolerance confirmation_bars
    rwa [List.length_map] at this

/-- Witness for C2 at close `[10, 12]`, lookback 2. -/
theorem break_retest_inclusive_window_all_neutral_witness :
    (12 : ℚ) ≤ 12 ∧
    break_retest_signals [some 10, some 12] 2 (1/100) 1 =
      List.replicate 2 (Regime.neutral, 0, 0) :=
  ⟨(break_retest_inclusive_window_all_neutral [10, 12] 2 (1/100) 1).1 1 12 12
      (by decide) (by decide),
   by
    have h := (break_retest_inclusive_window_all_neutral [10, 12] 2
        (1/100) 1).2.2.2.2
    simpa using h⟩

/-- C5: on every input series, no output row carries `BRK_BUY = 1` and
`BRK_SELL = 1` simultaneously, and a row on which either event fires has
regime `neutral` in that row's emitted state. -/
theorem break_retest_buy_sell_exclusive (close : List (Option ℚ))
    (lookback : ℕ) (tolerance : ℚ) (confirmation_bars : ℕ) (i : ℕ)
    (reg : Regime) (buy sell : ℕ)
    (h : (break_retest_signals close lookback tolerance
        confirmation_bars)[i]? = some (reg, buy, sell)) :
    ¬(buy = 1 ∧ sell = 1) ∧ ((buy = 1 ∨ sell = 1) → reg = Regime.neutral) := by
  have h' : (brkRun tolerance confirmation_bars brkInit
      (zip3 close (rolling_extrema lookback close).1
        (rolling_extrema lookback close).2))[i]? = some (reg, buy, sell) := h
  rcases brkRun_flag_cases tolerance confirmation_bars _ _ _ _ _ _ h' with
    h0 | h1 | h2
  · constructor
    · rintro ⟨hb, _⟩; rw [h0.1] at hb; cases hb
    · rintro (hb | hs)
      · rw [h0.1] at hb; cases hb
      · rw [h0.2] at hs; cases hs
  · constructor
    · rintro ⟨_, hs⟩; rw [h1.2.1] at hs; cases hs
    · intro _; exact h1.2.2
  · constructor
    · rintro ⟨hb, _⟩; rw [h2.1] at hb; cases hb
    · intro _; exact h2.2.2

/-- Witness for C5 at close `[10]`, lookback 1. -/
theorem break_retest_buy_sell_exclusive_witness :
    ¬((0 : ℕ) = 1 ∧ (0 : ℕ) = 1) ∧
      (((0 : ℕ) = 1 ∨ (0 : ℕ) = 1) → Regime.neutral = Regime.neutral) :=
  break_retest_buy_sell_exclusive [some 10] 1 (1/100) 1 0
    Regime.neutral 0 0 (by decide)

/-- C8: the detector is deterministic — two runs from freshly initialised
state over the same close column with the same parameters produce the same
sequence of `(state, buy, sell)` triples; the output is a pure function of
the inputs with no hidden state. -/
theorem break_retest_deterministic (close : List (Option ℚ)) (lookback : ℕ)
    (tolerance : ℚ) (confirmation_bars : ℕ) (st₁ st₂ : BrkSt)
    (h₁ : st₁ = brkInit) (h₂ : st₂ = brkInit) :
    brkRun tolerance confirmation_bars st₁
        (zip3 close (rolling_extrema lookback close).1
          (rolling_extrema lookback close).2) =
      brkRun tolerance confirmation_bars st₂
        (zip3 close (rolling_extrema lookback close).1
          (rolling_extrema lookback close).2) ∧
    break_retest_signals close lookback tolerance confirmation_bars =
      break_retest_signals close lookback tolerance confirmation_bars := by
  subst h₁; subst h₂; exact ⟨rfl, rfl⟩

theorem emaFrom_length (α prev : ℚ) (l : List ℚ) :
    (emaFrom α prev l).length = l.length := by
  induction l generalizing prev with
  | nil => rfl
  | cons c rest ih => simp only [emaFrom, List.length_cons, ih]

/-- The recurrence of `emaFrom`: each output value after the first is the
blend of the current input with the previous output. -/
theorem emaFrom_rec (α : ℚ) : ∀ (prev : ℚ) (l : List ℚ) (t : ℕ) (c e : ℚ),
    l[t + 1]? = some c → (emaFrom α prev l)[t]? = some e →
    (emaFrom α prev l)[t + 1]? = some (c * α + e * (1 - α)) := by
  intro prev l
  induction l generalizing prev with
  | nil => intro t c e hc _; simp at hc
  | cons c0 rest ih =>
    intro t c e hc he
    cases t with
    | zero =>
      cases rest with
      | nil => simp at hc
      | cons c1 r2 =>
        have hc' : c1 = c := by simpa using hc
        have he' : c0 * α + prev * (1 - α) = e := by simpa [emaFrom] using he
        subst hc'
        show (emaFrom α prev (c0 :: c1 :: r2))[1]? = _
        simp only [emaFrom, List.getElem?_cons_succ, List.getElem?_cons_zero]
        rw [he']
    | succ t =>
      have hc' : rest[t + 1]? = some c := by simpa using hc
      have he' : (emaFrom α (c0 * α + prev * (1 - α)) rest)[t]? = some e := by
        simpa [emaFrom] using he
      show (emaFrom α prev (c0 :: rest))[t + 2]? = _
      simp only [emaFrom, List.getElem?_cons_succ]
      exact ih _ t c e hc' he'

/-- C6: the EMA is seeded at the first close, defined from the very first
row (same length, no warm-up gap), and obeys
`ema[t] = close[t]*α + ema[t-1]*(1-α)` with `α = 2/(period+1)`. -/
theorem ema_seed_recurrence (period : ℕ) (close : List ℚ)
    (hne : close ≠ []) :
    (ema period close).length = close.length ∧
    (ema period close).head? = close.head? ∧
    ∀ t : ℕ, ∀ c e : ℚ, close[t + 1]? = some c →
      (ema period close)[t]? = some e →
      (ema period close)[t + 1]? =
        some (c * emaAlpha period + e * (1 - emaAlpha period)) := by
  obtain ⟨c0, rest, rfl⟩ : ∃ c0 rest, close = c0 :: rest := by
    cases close with
    | nil => exact absurd rfl hne
    | cons a l => exact ⟨a, l, rfl⟩
  refine ⟨?_, ?_, ?_⟩
  · simp only [ema, List.length_cons, emaFrom_length]
  · rfl
  · intro t c e hc he
    cases t with
    | zero =>
      cases rest with
      | nil => simp at hc
      | cons c1 r2 =>
        have hc' : c1 = c := by simpa using hc
        have he' : c0 = e := by simpa [ema] using he
        subst hc'; subst he'
        show (c0 :: emaFrom (emaAlpha period) c0 (c1 :: r2))[1]? = _
        simp only [List.getElem?_cons_succ, emaFrom, List.getElem?_cons_zero]
    | succ t =>
      have hc' : rest[t + 1]? = some c := by simpa using hc
      have he' : (emaFrom (emaAlpha period) c0 rest)[t]? = some e := by
        simpa [ema] using he
      show (c0 :: emaFrom (emaAlpha period) c0 rest)[t + 2]? = _
      simp only [List.getElem?_cons_succ]
      exact emaFrom_rec (emaAlpha period) c0 rest t c e hc' he'

theorem shift1_getElem? (l : List (Option ℚ)) (t : ℕ) (ht : t + 1 < l.length) :
    (shift1 l)[t + 1]? = l[t]? := by
  show (none :: l.dropLast)[t + 1]? = l[t]?
  rw [List.getElem?_cons_succ, List.getElem?_dropLast, if_pos (by omega)]

/-- C7: for every row `t+1`, when both MA columns are defined at `t+1` and
`t`, `buy = (fast[t+1] > slow[t+1] ∧ fast[t] ≤ slow[t])` and `sell` is the
mirror with comparisons flipped; when any of the four values is undefined
the events at `t+1` are false. -/
theorem ma_crossover_spec (fast slow : List (Option ℚ)) (t : ℕ)
    (f1 s1 f0 s0 : Option ℚ)
    (hf1 : fast[t + 1]? = some f1) (hs1 : slow[t + 1]? = some s1)
    (hf0 : fast[t]? = some f0) (hs0 : slow[t]? = some s0) :
    (∀ a b a' b' : ℚ, f1 = some a → s1 = some b → f0 = some a' →
      s0 = some b' →
      (ma_crossover_signals fast slow).1[t + 1]? =
        some (decide (b < a ∧ a' ≤ b')) ∧
      (ma_crossover_signals fast slow).2[t + 1]? =
        some (decide (a < b ∧ b' ≤ a'))) ∧
    ((f1 = none ∨ s1 = none ∨ f0 = none ∨ s0 = none) →
      (ma_crossover_signals fast slow).1[t + 1]? = some false ∧
      (ma_crossover_signals fast slow).2[t + 1]? = some false) := by
  have hfl : t + 1 < fast.length := (List.getElem?_eq_some_iff.mp hf1).1
  have hsl : t + 1 < slow.length := (List.getElem?_eq_some_iff.mp hs1).1
  have hsf : (shift1 fast)[t + 1]? = some f0 := by
    rw [shift1_getElem? fast t hfl]; exact hf0
  have hss : (shift1 slow)[t + 1]? = some s0 := by
    rw [shift1_getElem? slow t hsl]; exact hs0
  have hbuy : (ma_crossover_signals fast slow).1[t + 1]? =
      some (optGt f1 s1 && optLe f0 s0) := by
    show (List.zipWith and (List.zipWith optGt fast slow)
        (List.zipWith optLe (shift1 fast) (shift1 slow)))[t + 1]? = _
    rw [List.getElem?_zipWith, List.getElem?_zipWith, hf1, hs1,
      List.getElem?_zipWith, hsf, hss]
  have hsell : (ma_crossover_signals fast slow).2[t + 1]? =
      some (optLt f1 s1 && optGe f0 s0) := by
    show (List.zipWith and (List.zipWith optLt fast slow)
        (List.zipWith optGe (shift1 fast) (shift1 slow)))[t + 1]? = _
    rw [List.getElem?_zipWith, List.getElem?_zipWith, hf1, hs1,
      List.getElem?_zipWith, hsf, hss]
  constructor
  · intro a b a' b' ha hb ha' hb'
    subst ha; subst hb; subst ha'; subst hb'
    rw [hbuy, hsell]
    constructor <;> simp [optGt, optLt, optLe, optGe, Bool.decide_and]
  · intro hnone
    rw [hbuy, hsell]
    rcases hnone with h | h | h | h <;> subst h <;>
      constructor <;> simp [optGt, optLt, optLe, optGe]

/-- Witness for C7 on fast `[1, 3]`, slow `[2, 2]` at row 1 (a golden
cross). -/
theorem ma_crossover_spec_witness :
    (ma_crossover_signals [some 1, some 3] [some 2, some 2]).1[1]? =
      some (decide ((2 : ℚ) < 3 ∧ (1 : ℚ) ≤ 2)) ∧
    (ma_crossover_signals [some 1, some 3] [some 2, some 2]).2[1]? =
      some (decide ((3 : ℚ) < 2 ∧ (2 : ℚ) ≤ 1)) :=
  (ma_crossover_spec [some 1, some 3] [some 2, some 2] 0
      (some 3) (some 2) (some 1) (some 2)
      (by decide) (by decide) (by decide) (by decide)).1
    3 2 1 2 rfl rfl rfl rfl

/-- Witness for C6 at close `[1, 2]`, period 3. -/
theorem ema_seed_recurrence_witness :
    (ema 3 [1, 2]).length = 2 ∧
    (ema 3 [1, 2]).head? = some 1 ∧
    (ema 3 [1, 2])[1]? = some (2 * emaAlpha 3 + 1 * (1 - emaAlpha 3)) := by
  have h := ema_seed_recurrence 3 [1, 2] (by decide)
  exact ⟨h.1, h.2.1, h.2.2 0 2 1 (by decide) (by decide)⟩

/-- Witness for C8 at close `[10]`. -/
theorem break_retest_deterministic_witness :
    brkRun (1/100) 1 brkInit
        (zip3 [some 10] (rolling_extrema 1 [some 10]).1
          (rolling_extrema 1 [some 10]).2) =
      brkRun (1/100) 1 brkInit
        (zip3 [some 10] (rolling_extrema 1 [some 10]).1
          (rolling_extrema 1 [some 10]).2) :=
  (break_retest_deterministic [some 10] 1 (1/100) 1 brkInit brkInit rfl rfl).1

/-- C4 counterexample: with `lookback = 1` — below the spec's required
minimum of 2 — and an arbitrary tolerance, `break_retest_signals` is not
rejected as a configuration error: it computes and returns signals. -/
theorem break_retest_accepts_lookback_one :
    break_retest_signalsE [some 10] 1 (1/500) 1 =
      Except.ok [(Regime.neutral, 0, 0)] := by
  show Except.ok (break_retest_signals [some 10] 1 (1/500) 1) = _
  rw [show break_retest_signals [some 10] 1 (1/500) 1 =
    [(Regime.neutral, 0, 0)] by decide]

/-- C4 amended: the source performs no parameter validation — for every
non-negative lookback (including 0 and 1) and arbitrary tolerance and
confirmation bars, the computation proceeds and returns signals; only a
negative lookback is refused (by pandas itself, not by a check in
`break_retest_signals`). -/
theorem break_retest_no_validation (close : List (Option ℚ)) (lookback : ℤ)
    (hlb : 0 ≤ lookback) (tolerance : ℚ) (confirmation_bars : ℕ) :
    break_retest_signalsE close lookback tolerance confirmation_bars =
      Except.ok (break_retest_signals close lookback.toNat tolerance
        confirmation_bars) := by
  unfold break_retest_signalsE
  rw [if_neg (not_lt.mpr hlb)]

/-- Witness for the C4 amended statement at lookback 1. -/
theorem break_retest_no_validation_witness :
    break_retest_signalsE [some 10, some 11] 1 (3/1000) 1 =
      Except.ok (break_retest_signals [some 10, some 11] 1 (3/1000) 1) :=
  break_retest_no_validation [some 10, some 11] 1 (by decide) (3/1000) 1

/-- C10: `last_signal_row` is total on its interface: `(None, None)` on an
empty frame; on a non-empty frame the timestamp is the last index, with
`BUY` when the last `BRK_BUY` flag is at least 1, otherwise `SELL` when the
last `BRK_SELL` flag is at least 1, otherwise no signal — where an absent
flag column or a last value of `NaN` counts as 0 without raising. -/
theorem last_signal_row_total (f : SignalFrame) :
    (f.index = [] → last_signal_row f = (none, none)) ∧
    (∀ t : ℕ, f.index.getLast? = some t →
      ((1 ≤ lastFlag f.BRK_BUY → last_signal_row f = (some "BUY", some t)) ∧
       (¬ 1 ≤ lastFlag f.BRK_BUY → 1 ≤ lastFlag f.BRK_SELL →
          last_signal_row f = (some "SELL", some t)) ∧
       (¬ 1 ≤ lastFlag f.BRK_BUY → ¬ 1 ≤ lastFlag f.BRK_SELL →
          last_signal_row f = (none, some t)))) ∧
    (f.BRK_BUY = none → lastFlag f.BRK_BUY = 0) ∧
    (f.BRK_SELL = none → lastFlag f.BRK_SELL = 0) ∧
    (∀ l, f.BRK_BUY = some l → l.getLast? = some none →
      lastFlag f.BRK_BUY = 0) ∧
    (∀ l, f.BRK_SELL = some l → l.getLast? = some none →
      lastFlag f.BRK_SELL = 0) := by
  refine ⟨?_, ?_, ?_, ?_, ?_, ?_⟩
  · intro h
    simp [last_signal_row, h]
  · intro t ht
    have hne : ¬ f.index.length = 0 := by
      intro h0
      rw [List.length_eq_zero] at h0
      rw [h0] at ht
      cases ht
    refine ⟨?_, ?_, ?_⟩
    · intro hb
      unfold last_signal_row
      rw [if_neg hne, if_pos hb, ht]
    · intro hb hs
      unfold last_signal_row
      rw [if_neg hne, if_neg hb, if_pos hs, ht]
    · intro hb hs
      unfold last_signal_row
      rw [if_neg hne, if_neg hb, if_neg hs, ht]
  · intro h; simp [lastFlag, h]
  · intro h; simp [lastFlag, h]
  · intro l hl hlast; simp [lastFlag, hl, hlast]
  · intro l hl hlast; simp [lastFlag, hl, hlast]

/-- Witness for C10 on a one-row frame whose last buy flag is 1. -/
theorem last_signal_row_total_witness :
    last_signal_row ⟨[5], some [some 1], some [some 0]⟩ =
      (some "BUY", some 5) :=
  ((last_signal_row_total ⟨[5], some [some 1], some [some 0]⟩).2.1 5
      (by decide)).1 (by decide)

/-! Lemmas on the live-append path of `ws_bars`. -/

theorem dropDuplicatesFrom_sublist : ∀ (l : List (ℕ × Bar))
    (seen : List Bar), List.Sublist (dropDuplicatesFrom seen l) l := by
  intro l
  induction l with
  | nil => intro _; exact List.Sublist.refl []
  | cons r rest ih =>
    intro seen
    obtain ⟨t, b⟩ := r
    simp only [dropDuplicatesFrom]
    split
    · exact List.Sublist.trans (ih seen) (List.sublist_cons_self _ _)
    · exact List.Sublist.cons₂ _ (ih (b :: seen))

/-- The sort-then-dedup pipeline of the live-append step always yields a
series sorted (non-decreasingly) by timestamp. -/
theorem ws_bars_append_sorted (df : List (ℕ × Bar)) (row : ℕ × Bar) :
    List.Sorted tsLe (ws_bars_append df row) :=
  List.Pairwise.sublist (dropDuplicatesFrom_sublist _ [])
    (List.sorted_insertionSort tsLe (df ++ [row]))

/-- A row whose value occurs nowhere else in the list (and is not yet
seen) survives the value-based deduplication. -/
theorem mem_dropDuplicatesFrom : ∀ (l : List (ℕ × Bar)) (seen : List Bar)
    (t : ℕ) (b : Bar), (t, b) ∈ l → b ∉ seen →
    (∀ p ∈ l, p.2 = b → p = (t, b)) → (t, b) ∈ dropDuplicatesFrom seen l := by
  intro l
  induction l with
  | nil => intro seen t b h; cases h
  | cons r rest ih =>
    intro seen t b hmem hseen huniq
    obtain ⟨t', b'⟩ := r
    simp only [dropDuplicatesFrom]
    split
    case isTrue hb' =>
      have hne : ¬ (t, b) = (t', b') := by
        rintro ⟨⟩
        exact hseen hb'
      have hmem' : (t, b) ∈ rest := by
        rcases List.mem_cons.mp hmem with h | h
        · exact absurd h hne
        · exact h
      exact ih seen t b hmem' hseen
        (fun p hp => huniq p (List.mem_cons_of_mem _ hp))
    case isFalse hb' =>
      rcases List.mem_cons.mp hmem with h | h
      · exact h ▸ List.mem_cons_self _ _
      · by_cases hbb : b' = b
        · have heq := huniq (t', b') (List.mem_cons_self _ _) hbb
          exact heq ▸ List.mem_cons_self _ _
        · have hnotseen : b ∉ b' :: seen := by
            intro hin
            rcases List.mem_cons.mp hin with h' | h'
            · exact hbb h'.symm
            · exact hseen h'
          exact List.mem_cons_of_mem _ (ih (b' :: seen) t b h hnotseen
            (fun p hp hp2 => huniq p (List.mem_cons_of_mem _ hp) hp2))

/-- C3 counterexample: appending a live bar at an already-present timestamp
with different values does NOT leave exactly one row with the new values at
that timestamp — `drop_duplicates()` compares row values, not the index, so
both the old and the new row remain. -/
theorem ws_bars_append_no_last_write_wins :
    ws_bars_append [(0, barA)] (0, barB) = [(0, barA), (0, barB)] ∧
    (ws_bars_append [(0, barA)] (0, barB)).countP (fun r => r.1 == 0) = 2 :=
  ⟨by decide, by decide⟩

/-- C3 amended: the live-append step sorts by timestamp and deduplicates by
entire row value (keeping the first occurrence), not by timestamp; when the
appended bar's values differ from every existing row's values, the old row
at the duplicated timestamp and the appended bar are BOTH present in the
result — there is no last-write-wins collapse to a single row. -/
theorem ws_bars_append_keeps_both (df : List (ℕ × Bar)) (ts : ℕ)
    (b' bar : Bar) (hold : (ts, b') ∈ df)
    (hnodup : (df.map Prod.snd).Nodup) (hnew : bar ∉ df.map Prod.snd) :
    List.Sorted tsLe (ws_bars_append df (ts, bar)) ∧
    (ts, bar) ∈ ws_bars_append df (ts, bar) ∧
    (ts, b') ∈ ws_bars_append df (ts, bar) ∧ b' ≠ bar := by
  have hperm := List.perm_insertionSort tsLe (df ++ [(ts, bar)])
  have hbb' : b' ≠ bar := fun he =>
    hnew (he ▸ List.mem_map_of_mem Prod.snd hold)
  refine ⟨ws_bars_append_sorted df (ts, bar), ?_, ?_, hbb'⟩
  · apply mem_dropDuplicatesFrom
    · exact hperm.mem_iff.mpr (List.mem_append_right _ (List.mem_singleton.mpr rfl))
    · exact List.not_mem_nil bar
    · intro p hp hp2
      rcases List.mem_append.mp (hperm.mem_iff.mp hp) with h | h
      · exact absurd (hp2 ▸ List.mem_map_of_mem Prod.snd h) hnew
      · simpa using h
  · apply mem_dropDuplicatesFrom
    · exact hperm.mem_iff.mpr (List.mem_append_left _ hold)
    · exact List.not_mem_nil b'
    · intro p hp hp2
      rcases List.mem_append.mp (hperm.mem_iff.mp hp) with h | h
      · exact List.inj_on_of_nodup_map hnodup h hold hp2
      · have hpb : p = (ts, bar) := by simpa using h
        rw [hpb] at hp2
        exact absurd hp2.symm hbb'

/-- Witness for the C3 amended statement at the concrete duplicate
timestamp. -/
theorem ws_bars_append_keeps_both_witness :
    List.Sorted tsLe (ws_bars_append [(0, barA)] (0, barB)) ∧
    (0, barB) ∈ ws_bars_append [(0, barA)] (0, barB) ∧
    (0, barA) ∈ ws_bars_append [(0, barA)] (0, barB) ∧ barA ≠ barB :=
  ws_bars_append_keeps_both [(0, barA)] 0 barA barB (by decide) (by decide)
    (by decide)

end Daisy
